import Mathlib

/-!
Verification development for the stage-graph workflow engine ("Pipeline")
documented in `examples/user_guide/Pipelines.ipynb`.  The engine
implementation itself is not part of the supplied sources (only the
notebook that drives it is), so the definitions below are modelled from
the specification's data model (§3), component design (§4), external
interfaces (§6) and error handling design (§7), cross-checked against the
notebook's usage examples.
-/

namespace PipelineModel

/-- Modelled from the spec: parameter values held by a stage instance.
The notebook's stages hold numbers, booleans (readiness flags) and
strings (stage-name selectors such as `operator`). -/
inductive Value where
  | int (n : Int)
  | str (s : String)
  | bool (b : Bool)
deriving DecidableEq, Repr

/-- A parameter table: association list from parameter name to value. -/
abbrev Params := List (String × Value)

/-- First-match association-list lookup, used for every name-indexed
table in the model (parameters, stages, instances, adjacency). -/
def lookupA {α : Type} (l : List (String × α)) (k : String) : Option α :=
  match l with
  | [] => none
  | kv :: rest => if kv.1 = k then some kv.2 else lookupA rest k

theorem lookupA_nil {α : Type} (k : String) : lookupA ([] : List (String × α)) k = none := rfl

theorem lookupA_cons {α : Type} (kv : String × α) (rest : List (String × α)) (k : String) :
    lookupA (kv :: rest) k = if kv.1 = k then some kv.2 else lookupA rest k := rfl

theorem lookupA_mem {α : Type} {l : List (String × α)} {k : String} {v : α}
    (h : lookupA l k = some v) : (k, v) ∈ l := by
  induction l with
  | nil => simp [lookupA] at h
  | cons kv rest ih =>
    rw [lookupA_cons] at h
    by_cases hk : kv.1 = k
    · simp [hk] at h
      have : kv = (k, v) := by
        cases kv
        simp_all
      rw [this]
      exact List.mem_cons_self _ _
    · simp [hk] at h
      exact List.mem_cons_of_mem _ (ih h)

theorem lookupA_append_of_some {α : Type} {l : List (String × α)} {k : String} {v : α}
    (m : List (String × α)) (h : lookupA l k = some v) : lookupA (l ++ m) k = some v := by
  induction l with
  | nil => simp [lookupA] at h
  | cons kv rest ih =>
    rw [lookupA_cons] at h
    rw [List.cons_append, lookupA_cons]
    by_cases hk : kv.1 = k
    · simp [hk] at h ⊢
      exact h
    · simp [hk] at h ⊢
      exact ih h

theorem lookupA_append {α : Type} (l m : List (String × α)) (k : String) :
    lookupA (l ++ m) k = match lookupA l k with
      | some v => some v
      | none => lookupA m k := by
  induction l with
  | nil => simp [lookupA]
  | cons kv rest ih =>
    rw [List.cons_append, lookupA_cons, lookupA_cons]
    by_cases hk : kv.1 = k
    · simp [hk]
    · simp [hk, ih]

theorem mem_map_fst_of_lookupA_some {α : Type} {l : List (String × α)} {k : String}
    (h : (lookupA l k).isSome = true) : k ∈ l.map Prod.fst := by
  cases hv : lookupA l k with
  | none => rw [hv] at h; simp at h
  | some v =>
    have := lookupA_mem hv
    exact List.mem_map.mpr ⟨(k, v), this, rfl⟩

/-- Modelled from the spec: a live stage instance is its current table of
input-parameter values ("name → typed slot"). -/
structure StageInstance where
  params : Params
deriving DecidableEq, Repr

/-- Modelled from the spec (§9): a stage "may be a class or an object",
made explicit as a tagged variant `Uninstantiated(factory)` vs
`Live(instance)`.  The factory holds the default parameter values the
constructor would produce. -/
inductive StageSource where
  | definition (factory : StageInstance)
  | live (inst : StageInstance)
deriving DecidableEq, Repr

/-- Resolving a stage source to an instance (lifecycle manager §4.2). -/
def instantiateSource : StageSource → StageInstance
  | .definition f => f
  | .live i => i

/-- Modelled from the spec (§3, §6): per-stage registration record.
`outputOp` is the stage's declared output operation, returning the
mapping from declared output name to value, `none` when the operation
raises.  `ready_parameter`, `next_parameter`, `auto_advance` and
`inherit_params` are the `register_stage` options of §6. -/
structure StageSpec where
  outputOp : StageInstance → Option Params
  ready_parameter : Option String
  next_parameter : Option String
  auto_advance : Bool
  inherit_params : Bool
  source : StageSource

/-- Modelled from the spec (§7): the error kinds of the engine.
`UnknownStage` covers the §4.3 "inconsistency ... must fail with a
defined error" case, `NoFurtherStages` the terminal-stage case,
`InvalidSelection` the "validated to be one of the declared successors —
fails otherwise" case. -/
inductive PErr where
  | InvalidGraph
  | AmbiguousTransition
  | NotReady
  | OutputComputationFailed
  | HistoryUnderflow
  | UnknownStage
  | NoFurtherStages
  | InvalidSelection
deriving DecidableEq, Repr

/-- Modelled from the spec (§6): an adjacency value in `define_graph`'s
mapping may be an ordered collection of successor names or, as the
notebook shows (`'Multiply': 'Result'`), a single bare stage name. -/
inductive AdjVal where
  | single (s : String)
  | many (l : List String)
deriving DecidableEq, Repr

/-- Normalising an adjacency value to its successor list: a bare stage
name denotes the singleton successor set. -/
def AdjVal.toList : AdjVal → List String
  | .single s => [s]
  | .many l => l

/-- Normalised adjacency: stage name to ordered successor names. -/
abbrev Adjacency := List (String × List String)

/-- Normalise a declared adjacency mapping. -/
def normalizeAdj (adj : List (String × AdjVal)) : Adjacency :=
  adj.map (fun kv => (kv.1, kv.2.toList))

/-- Successors of a stage in the graph (empty when absent). -/
def succs (g : Adjacency) (n : String) : List String :=
  (lookupA g n).getD []

theorem succs_mem {g : Adjacency} {n t : String} (h : t ∈ succs g n) :
    ∃ l, lookupA g n = some l ∧ t ∈ l := by
  unfold succs at h
  cases hl : lookupA g n with
  | none => rw [hl] at h; simp [Option.getD] at h
  | some l => rw [hl] at h; exact ⟨l, rfl, h⟩

/-- Reachability along graph edges: `Reaches g a b` holds when there is
a (possibly empty) directed path from `a` to `b`. -/
inductive Reaches (g : Adjacency) : String → String → Prop where
  | refl (a : String) : Reaches g a a
  | tail {a b c : String} : Reaches g a b → c ∈ succs g b → Reaches g a c

/-- One saturation step of the reachable-set computation: add every
successor of every member. -/
def stepR (g : Adjacency) (s : Finset String) : Finset String :=
  s ∪ s.biUnion (fun n => (succs g n).toFinset)

/-- Iterated saturation from an initial set. -/
def reachN (g : Adjacency) (init : Finset String) : Nat → Finset String
  | 0 => init
  | Nat.succ k => stepR g (reachN g init k)

theorem subset_stepR (g : Adjacency) (s : Finset String) : s ⊆ stepR g s :=
  Finset.subset_union_left

theorem stepR_mono (g : Adjacency) {s t : Finset String} (h : s ⊆ t) :
    stepR g s ⊆ stepR g t := by
  unfold stepR
  intro x hx
  rcases Finset.mem_union.mp hx with hx | hx
  · exact Finset.mem_union_left _ (h hx)
  · rcases Finset.mem_biUnion.mp hx with ⟨b, hb, hxb⟩
    exact Finset.mem_union_right _ (Finset.mem_biUnion.mpr ⟨b, h hb, hxb⟩)

theorem reachN_subset_succ (g : Adjacency) (init : Finset String) (k : Nat) :
    reachN g init k ⊆ reachN g init (k + 1) := by
  induction k with
  | zero => exact subset_stepR g init
  | succ m ih => exact stepR_mono g ih

theorem reachN_mono (g : Adjacency) (init : Finset String) {k m : Nat} (h : k ≤ m) :
    reachN g init k ⊆ reachN g init m := by
  induction h with
  | refl => exact Finset.Subset.refl _
  | step h ih => exact ih.trans (reachN_subset_succ g init _)

theorem reachN_sound {g : Adjacency} {a x : String} {k : Nat}
    (h : x ∈ reachN g {a} k) : Reaches g a x := by
  induction k generalizing x with
  | zero =>
    have : x = a := Finset.mem_singleton.mp h
    rw [this]
    exact Reaches.refl a
  | succ m ih =>
    rcases Finset.mem_union.mp h with hx | hx
    · exact ih hx
    · rcases Finset.mem_biUnion.mp hx with ⟨b, hb, hxb⟩
      exact Reaches.tail (ih hb) (List.mem_toFinset.mp hxb)

theorem reachN_stable {g : Adjacency} {init : Finset String} {k : Nat}
    (h : reachN g init (k + 1) = reachN g init k) :
    ∀ j, reachN g init (k + j) = reachN g init k := by
  intro j
  induction j with
  | zero => rfl
  | succ m ih =>
    have : reachN g init (k + (m + 1)) = stepR g (reachN g init (k + m)) := rfl
    rw [this, ih]
    exact h

theorem reachN_stable_ge {g : Adjacency} {init : Finset String} {k : Nat}
    (h : reachN g init (k + 1) = reachN g init k) :
    ∀ m, k ≤ m → reachN g init m = reachN g init k := by
  intro m hm
  have := reachN_stable h (m - k)
  rwa [Nat.add_sub_cancel' hm] at this

theorem reachN_bounded {g : Adjacency} {init U : Finset String}
    (hinit : init ⊆ U) (hsucc : ∀ n t, t ∈ succs g n → t ∈ U) (k : Nat) :
    reachN g init k ⊆ U := by
  induction k with
  | zero => exact hinit
  | succ m ih =>
    intro x hx
    rcases Finset.mem_union.mp hx with hx | hx
    · exact ih hx
    · rcases Finset.mem_biUnion.mp hx with ⟨b, _, hxb⟩
      exact hsucc b x (List.mem_toFinset.mp hxb)

theorem reachN_growth (g : Adjacency) (a : String) :
    ∀ m, (∃ k, k ≤ m ∧ reachN g {a} (k + 1) = reachN g {a} k) ∨
      m + 1 ≤ (reachN g {a} m).card := by
  intro m
  induction m with
  | zero =>
    right
    simp [reachN]
  | succ m ih =>
    rcases ih with ⟨k, hk, hfix⟩ | hcard
    · exact Or.inl ⟨k, hk.trans (Nat.le_succ m), hfix⟩
    · by_cases heq : reachN g {a} (m + 1) = reachN g {a} m
      · exact Or.inl ⟨m, Nat.le_succ m, heq⟩
      · right
        have hss : reachN g {a} m ⊂ reachN g {a} (m + 1) :=
          Finset.ssubset_iff_subset_ne.mpr ⟨reachN_subset_succ g {a} m, fun h => heq h.symm⟩
        have := Finset.card_lt_card hss
        omega

theorem reachN_fix {g : Adjacency} {a : String} {U : Finset String}
    (hinit : a ∈ U) (hsucc : ∀ n t, t ∈ succs g n → t ∈ U) :
    reachN g {a} (U.card + 1) = reachN g {a} U.card := by
  rcases reachN_growth g a U.card with ⟨k, hk, hfix⟩ | hcard
  · have h1 := reachN_stable_ge hfix U.card hk
    have h2 := reachN_stable_ge hfix (U.card + 1) (hk.trans (Nat.le_succ _))
    rw [h1, h2]
  · have hsub : reachN g {a} U.card ⊆ U :=
      reachN_bounded (Finset.singleton_subset_iff.mpr hinit) hsucc U.card
    have := Finset.card_le_card hsub
    omega

theorem reachN_complete {g : Adjacency} {a x : String} {U : Finset String}
    (hinit : a ∈ U) (hsucc : ∀ n t, t ∈ succs g n → t ∈ U)
    (h : Reaches g a x) : x ∈ reachN g {a} U.card := by
  induction h with
  | refl =>
    exact reachN_mono g {a} (Nat.zero_le _) (Finset.mem_singleton_self a)
  | tail hr hstep ih =>
    have hfix := reachN_fix hinit hsucc
    have : _ ∈ stepR g (reachN g {a} U.card) :=
      Finset.mem_union_right _ (Finset.mem_biUnion.mpr ⟨_, ih, List.mem_toFinset.mpr hstep⟩)
    have h2 : _ ∈ reachN g {a} (U.card + 1) := this
    rwa [hfix] at h2

/-- The decided reachable set: saturation for `|nodes|` steps. -/
def reachableSet (g : Adjacency) (nodes : List String) (a : String) : Finset String :=
  reachN g {a} nodes.toFinset.card

theorem reachableSet_iff {g : Adjacency} {nodes : List String} {a x : String}
    (ha : a ∈ nodes) (hsucc : ∀ n t, t ∈ succs g n → t ∈ nodes) :
    x ∈ reachableSet g nodes a ↔ Reaches g a x := by
  constructor
  · exact reachN_sound
  · intro h
    exact reachN_complete (List.mem_toFinset.mpr ha)
      (fun n t ht => List.mem_toFinset.mpr (hsucc n t ht)) h

/-- Modelled from the spec (§4.1 (a)): every edge endpoint is a
registered stage. -/
def edgeEndpointsOK (nodes : List String) (g : Adjacency) : Bool :=
  g.all (fun kv => decide (kv.1 ∈ nodes) && kv.2.all (fun t => decide (t ∈ nodes)))

/-- Modelled from the spec (§4.1 (c)): entry candidates are the
registered stages with no incoming edges. -/
def entryCandidates (nodes : List String) (g : Adjacency) : List String :=
  nodes.filter (fun n => decide (∀ kv ∈ g, n ∉ kv.2))

/-- Modelled from the spec (§4.1 (b)): the graph is acyclic — no stage
can reach itself again through one of its successors. -/
def acyclicCheck (nodes : List String) (g : Adjacency) : Bool :=
  nodes.all (fun n => (succs g n).all (fun t => !(decide (n ∈ reachableSet g nodes t))))

/-- Modelled from the spec (§4.1 (c)): every registered stage is
reachable from the entry stage. -/
def allReachableCheck (nodes : List String) (g : Adjacency) (e : String) : Bool :=
  nodes.all (fun n => decide (n ∈ reachableSet g nodes e))

/-- Modelled from the spec (§4.1): the graph validator.  Returns the
unique entry stage when all three checks pass, `none` otherwise. -/
def validateEntry (nodes : List String) (g : Adjacency) : Option String :=
  if edgeEndpointsOK nodes g then
    match entryCandidates nodes g with
    | [e] => if acyclicCheck nodes g && allReachableCheck nodes g e then some e else none
    | _ => none
  else none

/-- Declarative reading of check (a). -/
def EndpointsRegistered (nodes : List String) (g : Adjacency) : Prop :=
  ∀ kv ∈ g, kv.1 ∈ nodes ∧ ∀ t ∈ kv.2, t ∈ nodes

/-- Declarative reading of "entry stage": registered, no incoming edge. -/
def IsEntry (nodes : List String) (g : Adjacency) (n : String) : Prop :=
  n ∈ nodes ∧ ∀ kv ∈ g, n ∉ kv.2

/-- Declarative reading of "the graph contains a cycle". -/
def HasCycle (g : Adjacency) : Prop :=
  ∃ n t, t ∈ succs g n ∧ Reaches g t n

/-- Declarative validity of a declared graph (§4.1): registered
endpoints, acyclicity, and a unique entry from which every registered
stage is reachable. -/
def ValidGraphSpec (nodes : List String) (g : Adjacency) : Prop :=
  EndpointsRegistered nodes g ∧ ¬ HasCycle g ∧
    ∃ e, IsEntry nodes g e ∧ (∀ x, IsEntry nodes g x → x = e) ∧ ∀ n ∈ nodes, Reaches g e n

theorem edgeEndpointsOK_iff (nodes : List String) (g : Adjacency) :
    edgeEndpointsOK nodes g = true ↔ EndpointsRegistered nodes g := by
  unfold edgeEndpointsOK EndpointsRegistered
  simp [List.all_eq_true]

theorem endpoints_succs_mem {nodes : List String} {g : Adjacency}
    (h : EndpointsRegistered nodes g) : ∀ n t, t ∈ succs g n → t ∈ nodes := by
  intro n t ht
  rcases succs_mem ht with ⟨l, hl, htl⟩
  exact (h (n, l) (lookupA_mem hl)).2 t htl

theorem endpoints_key_mem {nodes : List String} {g : Adjacency}
    (h : EndpointsRegistered nodes g) {n t : String} (ht : t ∈ succs g n) : n ∈ nodes := by
  rcases succs_mem ht with ⟨l, hl, _⟩
  exact (h (n, l) (lookupA_mem hl)).1

theorem mem_entryCandidates_iff (nodes : List String) (g : Adjacency) (n : String) :
    n ∈ entryCandidates nodes g ↔ IsEntry nodes g n := by
  unfold entryCandidates IsEntry
  simp [List.mem_filter]

theorem filter_eq_singleton_iff {α : Type} (p : α → Bool) (l : List α) (hnd : l.Nodup)
    (e : α) : l.filter p = [e] ↔
      (e ∈ l ∧ p e = true ∧ ∀ x ∈ l, p x = true → x = e) := by
  constructor
  · intro h
    have he : e ∈ l.filter p := by rw [h]; exact List.mem_cons_self e []
    have hel := List.mem_filter.mp he
    refine ⟨hel.1, hel.2, ?_⟩
    intro x hx hpx
    have : x ∈ l.filter p := List.mem_filter.mpr ⟨hx, hpx⟩
    rw [h] at this
    simpa using this
  · rintro ⟨hel, hpe, huniq⟩
    have hmem : e ∈ l.filter p := List.mem_filter.mpr ⟨hel, hpe⟩
    have hnod : (l.filter p).Nodup := hnd.filter p
    have hall : ∀ x ∈ l.filter p, x = e := by
      intro x hx
      have := List.mem_filter.mp hx
      exact huniq x this.1 this.2
    cases hf : l.filter p with
    | nil => rw [hf] at hmem; simp at hmem
    | cons a rest =>
      have ha : a = e := hall a (by rw [hf]; exact List.mem_cons_self a rest)
      cases rest with
      | nil => rw [ha]
      | cons b rest2 =>
        have hb : b = e := hall b (by rw [hf]; simp)
        rw [hf] at hnod
        have := List.nodup_cons.mp hnod
        exact absurd (by rw [ha, hb]; simp : a ∈ b :: rest2) this.1

theorem validateEntry_some_inv {nodes : List String} {g : Adjacency} {e : String}
    (h : validateEntry nodes g = some e) :
    edgeEndpointsOK nodes g = true ∧ entryCandidates nodes g = [e] ∧
      acyclicCheck nodes g = true ∧ allReachableCheck nodes g e = true := by
  unfold validateEntry at h
  split at h
  · rename_i hep
    split at h
    · rename_i e0 heq
      split at h
      · rename_i hchecks
        have he0 : e0 = e := by simpa using h
        subst he0
        exact ⟨hep, heq, (Bool.and_eq_true _ _).mp hchecks |>.1,
          (Bool.and_eq_true _ _).mp hchecks |>.2⟩
      · simp at h
    · simp at h
  · simp at h

theorem validateEntry_some_iff {nodes : List String} {g : Adjacency}
    (hnd : nodes.Nodup) :
    (∃ e, validateEntry nodes g = some e) ↔ ValidGraphSpec nodes g := by
  constructor
  · rintro ⟨e, h⟩
    obtain ⟨hep, hec, hacy, hreach⟩ := validateEntry_some_inv h
    have hreg : EndpointsRegistered nodes g := (edgeEndpointsOK_iff nodes g).mp hep
    have hent : IsEntry nodes g e :=
      (mem_entryCandidates_iff nodes g e).mp (by rw [hec]; simp)
    refine ⟨hreg, ?_, e, hent, ?_, ?_⟩
    · rintro ⟨n, t, ht, hr⟩
      have hn : n ∈ nodes := endpoints_key_mem hreg ht
      have htn : t ∈ nodes := endpoints_succs_mem hreg n t ht
      unfold acyclicCheck at hacy
      rw [List.all_eq_true] at hacy
      have h1 := hacy n hn
      rw [List.all_eq_true] at h1
      have h2 := h1 t ht
      simp at h2
      exact h2 ((reachableSet_iff htn (endpoints_succs_mem hreg)).mpr hr)
    · intro x hx
      have := (mem_entryCandidates_iff nodes g x).mpr hx
      rw [hec] at this
      simpa using this
    · intro n hn
      unfold allReachableCheck at hreach
      rw [List.all_eq_true] at hreach
      have h1 := hreach n hn
      simp at h1
      exact (reachableSet_iff hent.1 (endpoints_succs_mem hreg)).mp h1
  · rintro ⟨hreg, hnocyc, e, hent, huniq, hreach⟩
    have hep : edgeEndpointsOK nodes g = true := (edgeEndpointsOK_iff nodes g).mpr hreg
    have hsuccn := endpoints_succs_mem hreg
    have hec : entryCandidates nodes g = [e] := by
      unfold entryCandidates
      rw [filter_eq_singleton_iff _ nodes hnd e]
      refine ⟨hent.1, ?_, ?_⟩
      · simp
        intro a b hab
        exact hent.2 (a, b) hab
      · intro x hx hpx
        simp at hpx
        exact huniq x ⟨hx, fun kv hkv => hpx kv.1 kv.2 hkv⟩
    have hacy : acyclicCheck nodes g = true := by
      unfold acyclicCheck
      rw [List.all_eq_true]
      intro n hn
      rw [List.all_eq_true]
      intro t ht
      simp
      intro hmem
      exact hnocyc ⟨n, t, ht, (reachableSet_iff (hsuccn n t ht) hsuccn).mp hmem⟩
    have hrea : allReachableCheck nodes g e = true := by
      unfold allReachableCheck
      rw [List.all_eq_true]
      intro n hn
      simp
      exact (reachableSet_iff hent.1 hsuccn).mpr (hreach n hn)
    refine ⟨e, ?_⟩
    unfold validateEntry
    rw [if_pos hep, hec]
    simp [hacy, hrea]

theorem validateEntry_entry_mem {nodes : List String} {g : Adjacency} {e : String}
    (h : validateEntry nodes g = some e) : e ∈ nodes := by
  obtain ⟨_, hec, _, _⟩ := validateEntry_some_inv h
  have : e ∈ entryCandidates nodes g := by rw [hec]; simp
  exact ((mem_entryCandidates_iff nodes g e).mp this).1

/-- Modelled from the spec (§3 "Cursor", §6): the engine state — the
registered stages, the validated graph together with the stage-name
universe and entry recorded when it was defined, the current-stage
cursor, the path-stack history, and the live instances held so far. -/
structure Pipeline where
  stages : List (String × StageSpec)
  graph : Adjacency
  graphNodes : List String
  entry : String
  current : String
  history : List String
  instances : List (String × StageInstance)

/-- The empty engine, before any registration. -/
def emptyPipeline : Pipeline :=
  { stages := [], graph := [], graphNodes := [], entry := "", current := "",
    history := [], instances := [] }

/-- Registered stage names, in declaration order. -/
def stageNames (p : Pipeline) : List String := p.stages.map Prod.fst

/-- Modelled from the spec (§6 `register_stage`): registration records
the definition; it performs no instantiation. -/
def add_stage (p : Pipeline) (name : String) (sp : StageSpec) : Pipeline :=
  { p with stages := p.stages ++ [(name, sp)] }

/-- Modelled from the spec (§6 `define_graph`, §4.1): validate the
declared adjacency against the registered stage names; on success record
the normalised graph, its node universe and the entry stage, otherwise
fail with `InvalidGraph`. -/
def define_graph (p : Pipeline) (adj : List (String × AdjVal)) : Except PErr Pipeline :=
  match validateEntry (stageNames p) (normalizeAdj adj) with
  | some e => .ok { p with graph := normalizeAdj adj, graphNodes := stageNames p, entry := e }
  | none => .error .InvalidGraph

/-- Update (or create) the held instance of a stage. -/
def setInstance (l : List (String × StageInstance)) (k : String) (v : StageInstance) :
    List (String × StageInstance) :=
  match l with
  | [] => [(k, v)]
  | kv :: rest => if kv.1 = k then (k, v) :: rest else kv :: setInstance rest k v

theorem lookupA_setInstance_self (l : List (String × StageInstance)) (k : String)
    (v : StageInstance) : lookupA (setInstance l k v) k = some v := by
  induction l with
  | nil => simp [setInstance, lookupA]
  | cons kv rest ih =>
    unfold setInstance
    by_cases hk : kv.1 = k
    · simp [hk, lookupA]
    · simp [hk, lookupA_cons, ih]

theorem lookupA_setInstance_other (l : List (String × StageInstance)) {k k' : String}
    (v : StageInstance) (h : k ≠ k') : lookupA (setInstance l k v) k' = lookupA l k' := by
  induction l with
  | nil => simp [setInstance, lookupA, h]
  | cons kv rest ih =>
    unfold setInstance
    by_cases hk : kv.1 = k
    · simp [hk, lookupA_cons, h]
    · rw [if_neg hk, lookupA_cons, lookupA_cons, ih]

/-- Modelled from the spec (§4.2 `enter`, §3 "Inheritance"): apply
inherited values to the input parameters of an instance that share their
name; parameters the stage does not declare are ignored. -/
def applyInherited (inst : StageInstance) (inh : Params) : StageInstance :=
  ⟨inst.params.map (fun kv =>
    match lookupA inh kv.1 with
    | some v => (kv.1, v)
    | none => kv)⟩

theorem applyInherited_nil (inst : StageInstance) : applyInherited inst [] = inst := by
  unfold applyInherited
  cases inst with
  | mk ps =>
    simp [lookupA]

theorem applyInherited_lookup (inst : StageInstance) (inh : Params) (k : String) :
    lookupA (applyInherited inst inh).params k =
      match lookupA inst.params k, lookupA inh k with
      | some _, some v => some v
      | some w, none => some w
      | none, _ => none := by
  cases inst with
  | mk ps =>
    induction ps with
    | nil => simp [applyInherited, lookupA]
    | cons kv rest ih =>
      unfold applyInherited at ih ⊢
      simp only [List.map_cons]
      by_cases hk : kv.1 = k
      · subst hk
        cases hv : lookupA inh kv.1 with
        | none => simp [lookupA_cons, hv]
        | some v => simp [lookupA_cons, hv]
      · cases hv : lookupA inh kv.1 with
        | none => simp only [hv, lookupA_cons, if_neg hk]; exact ih
        | some v => simp only [hv, lookupA_cons, if_neg hk]; exact ih

/-- The instance `enter` would start from: the held instance when the
stage was visited before, the registered source otherwise. -/
def baseInstance (p : Pipeline) (name : String) : Option StageInstance :=
  match lookupA p.instances name with
  | some i => some i
  | none => (lookupA p.stages name).map (fun sp => instantiateSource sp.source)

/-- Modelled from the spec (§4.2 `enter`): instantiate the target stage
if only a definition was registered (reusing the held instance when the
stage was already visited), apply same-named inherited parameters when
the stage opts into inheritance, and make it current. -/
def enter (p : Pipeline) (name : String) (inh : Params) : Except PErr Pipeline :=
  match lookupA p.stages name with
  | none => .error .UnknownStage
  | some sp =>
    match baseInstance p name with
    | none => .error .UnknownStage
    | some base =>
      let inst := if sp.inherit_params then applyInherited base inh else base
      .ok { p with current := name, instances := setInstance p.instances name inst }

/-- Modelled from the spec (§3 "readiness", §4.3): a stage with no
declared readiness flag is always ready; otherwise the flag parameter
must currently hold `true`. -/
def isReady (sp : StageSpec) (inst : StageInstance) : Bool :=
  match sp.ready_parameter with
  | none => true
  | some r =>
    match lookupA inst.params r with
    | some (.bool true) => true
    | _ => false

/-- Modelled from the spec (§4.3): resolve the next stage name — the
single successor if exactly one exists, else the value of the stage's
designated `next_parameter` (validated to be a declared successor),
else the explicit caller selection, else `AmbiguousTransition`; a stage
with zero successors is terminal. -/
def resolveNext (sp : StageSpec) (inst : StageInstance) (sc : List String)
    (sel : Option String) : Except PErr String :=
  match sc with
  | [] => .error .NoFurtherStages
  | [t] => .ok t
  | t1 :: t2 :: ts =>
    match sp.next_parameter with
    | some np =>
      match lookupA inst.params np with
      | some (.str t) =>
        if t ∈ t1 :: t2 :: ts then .ok t else .error .InvalidSelection
      | _ => .error .InvalidSelection
    | none =>
      match sel with
      | some t => if t ∈ t1 :: t2 :: ts then .ok t else .error .InvalidSelection
      | none => .error .AmbiguousTransition

/-- Modelled from the spec (§4.3 `advance`): check readiness, resolve
the target, compute the completed stage's outputs (§4.2 `leave`,
aborting with `OutputComputationFailed` when the output operation
raises), push the current name onto history, and enter the target with
the declared outputs and the matching-named parameter values of the
completed stage as inherited parameters (outputs shadow parameters). -/
def advance (p : Pipeline) (sel : Option String) : Except PErr Pipeline :=
  match lookupA p.stages p.current with
  | none => .error .UnknownStage
  | some sp =>
    match lookupA p.instances p.current with
    | none => .error .UnknownStage
    | some inst =>
      if isReady sp inst then
        match resolveNext sp inst (succs p.graph p.current) sel with
        | .error e => .error e
        | .ok target =>
          match sp.outputOp inst with
          | none => .error .OutputComputationFailed
          | some outs =>
            enter { p with history := p.current :: p.history } target (outs ++ inst.params)
      else .error .NotReady

/-- Modelled from the spec (§4.3 `retreat`): only legal if history is
non-empty; pop the last name, re-enter it with no re-propagation. -/
def retreat (p : Pipeline) : Except PErr Pipeline :=
  match p.history with
  | [] => .error .HistoryUnderflow
  | n :: rest => enter { p with history := rest } n []

/-- Modelled from the spec (§6 `can_retreat`): reflects non-empty
history. -/
def can_retreat (p : Pipeline) : Bool :=
  !p.history.isEmpty

/-- Modelled from the spec (§6): enter the entry stage to begin driving
the workflow, with a fresh history. -/
def startPipeline (p : Pipeline) : Except PErr Pipeline :=
  enter { p with history := [] } p.entry []

/-- Stateful view of `advance`: a failed call leaves the engine on the
state it started from, surfacing the error. -/
def advanceStep (p : Pipeline) (sel : Option String) : Pipeline × Option PErr :=
  match advance p sel with
  | .ok q => (q, none)
  | .error e => (p, some e)

/-- Stateful view of `retreat`: a failed call leaves the engine
unchanged. -/
def retreatStep (p : Pipeline) : Pipeline × Option PErr :=
  match retreat p with
  | .ok q => (q, none)
  | .error e => (p, some e)

/-- The state after a successful `advance` (the starting state when the
call failed). -/
def advD (p : Pipeline) (sel : Option String) : Pipeline :=
  (advanceStep p sel).1

/-- The state after a successful `retreat` (the starting state when the
call failed). -/
def retD (p : Pipeline) : Pipeline :=
  (retreatStep p).1

theorem enter_ok_inv {p : Pipeline} {name : String} {inh : Params} {q : Pipeline}
    (h : enter p name inh = .ok q) :
    ∃ sp base, lookupA p.stages name = some sp ∧ baseInstance p name = some base ∧
      q = { p with
            current := name
            instances := setInstance p.instances name
              (if sp.inherit_params then applyInherited base inh else base) } := by
  unfold enter at h
  split at h
  · simp at h
  · rename_i sp hsp
    split at h
    · simp at h
    · rename_i base hbase
      simp at h
      exact ⟨sp, base, hsp, hbase, h.symm⟩

theorem enter_eq_ok {p : Pipeline} {name : String} {sp : StageSpec} {base : StageInstance}
    (inh : Params) (hsp : lookupA p.stages name = some sp)
    (hbase : baseInstance p name = some base) :
    enter p name inh = .ok { p with
      current := name
      instances := setInstance p.instances name
        (if sp.inherit_params then applyInherited base inh else base) } := by
  unfold enter
  rw [hsp, hbase]

theorem advance_ok_inv {p : Pipeline} {sel : Option String} {q : Pipeline}
    (h : advance p sel = .ok q) :
    ∃ sp inst target outs,
      lookupA p.stages p.current = some sp ∧
      lookupA p.instances p.current = some inst ∧
      isReady sp inst = true ∧
      resolveNext sp inst (succs p.graph p.current) sel = .ok target ∧
      sp.outputOp inst = some outs ∧
      enter { p with history := p.current :: p.history } target (outs ++ inst.params) = .ok q := by
  unfold advance at h
  split at h
  · simp at h
  · rename_i sp hsp
    split at h
    · simp at h
    · rename_i inst hinst
      split at h
      · split at h
        · simp at h
        · rename_i target hres
          split at h
          · simp at h
          · rename_i outs houts
            rename_i hready _ _
            exact ⟨sp, inst, target, outs, hsp, hinst, hready, hres, houts, h⟩
      · simp at h

theorem advance_eq_enter {p : Pipeline} {sel : Option String} {sp : StageSpec}
    {inst : StageInstance} {target : String} {outs : Params}
    (hsp : lookupA p.stages p.current = some sp)
    (hinst : lookupA p.instances p.current = some inst)
    (hready : isReady sp inst = true)
    (hres : resolveNext sp inst (succs p.graph p.current) sel = .ok target)
    (houts : sp.outputOp inst = some outs) :
    advance p sel =
      enter { p with history := p.current :: p.history } target (outs ++ inst.params) := by
  unfold advance
  simp only [hsp, hinst, hready, hres, houts, if_true]

theorem advance_error_of_notReady {p : Pipeline} {sel : Option String} {sp : StageSpec}
    {inst : StageInstance}
    (hsp : lookupA p.stages p.current = some sp)
    (hinst : lookupA p.instances p.current = some inst)
    (hready : isReady sp inst = false) :
    advance p sel = .error .NotReady := by
  unfold advance
  simp only [hsp, hinst, hready]
  simp

theorem advance_error_of_resolve {p : Pipeline} {sel : Option String} {sp : StageSpec}
    {inst : StageInstance} {e : PErr}
    (hsp : lookupA p.stages p.current = some sp)
    (hinst : lookupA p.instances p.current = some inst)
    (hready : isReady sp inst = true)
    (hres : resolveNext sp inst (succs p.graph p.current) sel = .error e) :
    advance p sel = .error e := by
  unfold advance
  simp only [hsp, hinst, hready, hres, if_true]

theorem advance_error_of_output {p : Pipeline} {sel : Option String} {sp : StageSpec}
    {inst : StageInstance} {target : String}
    (hsp : lookupA p.stages p.current = some sp)
    (hinst : lookupA p.instances p.current = some inst)
    (hready : isReady sp inst = true)
    (hres : resolveNext sp inst (succs p.graph p.current) sel = .ok target)
    (houts : sp.outputOp inst = none) :
    advance p sel = .error .OutputComputationFailed := by
  unfold advance
  simp only [hsp, hinst, hready, hres, houts, if_true]

theorem resolveNext_mem {sp : StageSpec} {inst : StageInstance} {sc : List String}
    {sel : Option String} {t : String}
    (h : resolveNext sp inst sc sel = .ok t) : t ∈ sc := by
  unfold resolveNext at h
  repeat' split at h
  all_goals simp_all

theorem retreat_ok_inv {p q : Pipeline} (h : retreat p = .ok q) :
    ∃ n rest, p.history = n :: rest ∧ enter { p with history := rest } n [] = .ok q := by
  unfold retreat at h
  split at h
  · simp at h
  · rename_i n rest hh
    exact ⟨n, rest, hh, h⟩

theorem advD_of_ok {p q : Pipeline} {sel : Option String} (h : advance p sel = .ok q) :
    advD p sel = q := by
  unfold advD advanceStep
  rw [h]

theorem advD_of_error {p : Pipeline} {sel : Option String} {e : PErr}
    (h : advance p sel = .error e) : advD p sel = p := by
  unfold advD advanceStep
  rw [h]

theorem retD_of_ok {p q : Pipeline} (h : retreat p = .ok q) : retD p = q := by
  unfold retD retreatStep
  rw [h]

theorem isOk_exists {α β : Type} {e : Except α β} (h : e.isOk = true) : ∃ b, e = .ok b := by
  cases e with
  | ok b => exact ⟨b, rfl⟩
  | error a => simp [Except.isOk, Except.toBool] at h

theorem define_graph_ok_inv {p q : Pipeline} {adj : List (String × AdjVal)}
    (h : define_graph p adj = .ok q) :
    ∃ e, validateEntry (stageNames p) (normalizeAdj adj) = some e ∧
      q = { p with graph := normalizeAdj adj, graphNodes := stageNames p, entry := e } := by
  unfold define_graph at h
  split at h
  · rename_i e he
    simp at h
    exact ⟨e, he, h.symm⟩
  · simp at h

/-- Registering a list of stages on the empty engine. -/
def mkStages (l : List (String × StageSpec)) : Pipeline :=
  l.foldl (fun p2 kv => add_stage p2 kv.1 kv.2) emptyPipeline

/-- States reachable by any sequence of `register_stage`, `define_graph`,
`advance` and `retreat` operations from a validly initialized workflow
(stages registered, graph defined and validated, entry stage entered).
Failed operations leave the state unchanged, so only successful
transitions appear. -/
inductive ReachSt : Pipeline → Prop where
  | init {l : List (String × StageSpec)} {adj : List (String × AdjVal)} {p q : Pipeline} :
      define_graph (mkStages l) adj = .ok p → startPipeline p = .ok q → ReachSt q
  | reg {p : Pipeline} (name : String) (sp : StageSpec) :
      ReachSt p → ReachSt (add_stage p name sp)
  | defineG {p q : Pipeline} {adj : List (String × AdjVal)} :
      ReachSt p → define_graph p adj = .ok q → ReachSt q
  | adv {p q : Pipeline} {sel : Option String} :
      ReachSt p → advance p sel = .ok q → ReachSt q
  | ret {p q : Pipeline} :
      ReachSt p → retreat p = .ok q → ReachSt q

/-- The cursor/history invariant maintained by the engine: every name on
the history stack and the current name denote stages of the defined
graph and registered stages, and the graph's edges stay inside the
graph's node universe. -/
def EngineInv (p : Pipeline) : Prop :=
  (∀ n ∈ p.history, n ∈ p.graphNodes ∧ (lookupA p.stages n).isSome = true) ∧
    p.current ∈ p.graphNodes ∧ (lookupA p.stages p.current).isSome = true ∧
    edgeEndpointsOK p.graphNodes p.graph = true

theorem succs_mem_nodes {nodes : List String} {g : Adjacency} {n t : String}
    (hep : edgeEndpointsOK nodes g = true) (ht : t ∈ succs g n) : t ∈ nodes :=
  endpoints_succs_mem ((edgeEndpointsOK_iff nodes g).mp hep) n t ht

theorem lookupA_isSome_append {α : Type} {l : List (String × α)} {k : String}
    (m : List (String × α)) (h : (lookupA l k).isSome = true) :
    (lookupA (l ++ m) k).isSome = true := by
  cases hv : lookupA l k with
  | none => rw [hv] at h; simp at h
  | some v => rw [lookupA_append_of_some m hv]; rfl

theorem engineInv_of_reach {p : Pipeline} (h : ReachSt p) : EngineInv p := by
  induction h with
  | init hdg hst =>
    obtain ⟨e, hve, hp⟩ := define_graph_ok_inv hdg
    obtain ⟨sp, base, hsp, hbase, hq⟩ := enter_ok_inv hst
    subst hp hq
    refine ⟨?_, ?_, ?_, ?_⟩
    · intro n hn
      simp at hn
    · simp
      exact validateEntry_entry_mem hve
    · simp at hsp ⊢
      rw [hsp]
      rfl
    · simp
      exact (validateEntry_some_inv hve).1
  | @reg p2 name sp hr ih =>
    obtain ⟨hhist, hcur, hcl, hep⟩ := ih
    refine ⟨?_, hcur, ?_, hep⟩
    · intro n hn
      simp only [add_stage] at hn ⊢
      obtain ⟨h1, h2⟩ := hhist n hn
      exact ⟨h1, lookupA_isSome_append _ h2⟩
    · simp only [add_stage]
      exact lookupA_isSome_append _ hcl
  | defineG hr hdg ih =>
    obtain ⟨hhist, hcur, hcl, hep⟩ := ih
    obtain ⟨e, hve, hq⟩ := define_graph_ok_inv hdg
    subst hq
    refine ⟨?_, ?_, ?_, ?_⟩
    · intro n hn
      simp only at hn ⊢
      obtain ⟨h1, h2⟩ := hhist n hn
      exact ⟨mem_map_fst_of_lookupA_some h2, h2⟩
    · show _ ∈ stageNames _
      exact mem_map_fst_of_lookupA_some hcl
    · simpa using hcl
    · simp
      exact (validateEntry_some_inv hve).1
  | adv hr hadv ih =>
    obtain ⟨hhist, hcur, hcl, hep⟩ := ih
    obtain ⟨sp, inst, target, outs, hsp, hinst, hready, hres, houts, hent⟩ :=
      advance_ok_inv hadv
    obtain ⟨spT, base, hspT, hbase, hq⟩ := enter_ok_inv hent
    subst hq
    refine ⟨?_, ?_, ?_, ?_⟩
    · intro n hn
      simp at hn ⊢
      rcases hn with hn | hn
      · subst hn
        exact ⟨hcur, hcl⟩
      · exact hhist n hn
    · simp
      exact succs_mem_nodes hep (resolveNext_mem hres)
    · simp at hspT ⊢
      rw [hspT]
      rfl
    · simpa using hep
  | ret hr hret ih =>
    obtain ⟨hhist, hcur, hcl, hep⟩ := ih
    obtain ⟨n, rest, hh, hent⟩ := retreat_ok_inv hret
    obtain ⟨spT, base, hspT, hbase, hq⟩ := enter_ok_inv hent
    subst hq
    refine ⟨?_, ?_, ?_, ?_⟩
    · intro m hm
      simp at hm ⊢
      exact hhist m (by rw [hh]; exact List.mem_cons_of_mem _ hm)
    · simp
      exact (hhist n (by rw [hh]; exact List.mem_cons_self _ _)).1
    · simp at hspT ⊢
      rw [hspT]
      rfl
    · simpa using hep

theorem baseInstance_isSome {p : Pipeline} {n : String}
    (h : (lookupA p.stages n).isSome = true) : (baseInstance p n).isSome = true := by
  unfold baseInstance
  cases hv : lookupA p.instances n with
  | some i => simp
  | none =>
    simp only
    cases hs : lookupA p.stages n with
    | none => rw [hs] at h; simp at h
    | some sp => simp

theorem enter_ok_current {p : Pipeline} {n : String} (inh : Params)
    (hsp : (lookupA p.stages n).isSome = true) :
    ∃ q, enter p n inh = .ok q ∧ q.current = n := by
  obtain ⟨sp, hv⟩ := Option.isSome_iff_exists.mp hsp
  obtain ⟨base, hb⟩ := Option.isSome_iff_exists.mp (baseInstance_isSome hsp)
  exact ⟨_, enter_eq_ok inh hv hb, rfl⟩

theorem resolveNext_ne_notReady (sp : StageSpec) (inst : StageInstance)
    (sc : List String) (sel : Option String) :
    resolveNext sp inst sc sel ≠ .error .NotReady := by
  unfold resolveNext
  repeat' split
  all_goals simp

theorem enter_ne_notReady (p : Pipeline) (n : String) (inh : Params) :
    enter p n inh ≠ .error .NotReady := by
  unfold enter
  repeat' split
  all_goals simp

/-- The state after `define_graph` (the starting state when the call
failed). -/
def dgD (p : Pipeline) (adj : List (String × AdjVal)) : Pipeline :=
  match define_graph p adj with
  | .ok q => q
  | .error _ => p

/-- The state after `startPipeline` (the starting state when the call
failed). -/
def stD (p : Pipeline) : Pipeline :=
  match startPipeline p with
  | .ok q => q
  | .error _ => p

/-! Concrete scenario data used by the witness theorems, mirroring the
notebook's stages (`Stage1`/`Stage2`, the `Input`/`Multiply`/`Add`/
`Result` DAG, and the `ready`/`operator` flow-control variants). -/

/-- Output operation of the notebook's `Stage1`: outputs `c = a * b` and
`d = a ^ b`. -/
def stage1Output (i : StageInstance) : Option Params :=
  match lookupA i.params "a", lookupA i.params "b" with
  | some (.int a), some (.int b) => some [("c", .int (a * b)), ("d", .int (a ^ b.toNat))]
  | _, _ => none

def stage1Spec : StageSpec :=
  { outputOp := stage1Output
    ready_parameter := none
    next_parameter := none
    auto_advance := false
    inherit_params := true
    source := .live ⟨[("a", .int 2), ("b", .int 3)]⟩ }

def stage2Spec : StageSpec :=
  { outputOp := fun _ => some []
    ready_parameter := none
    next_parameter := none
    auto_advance := false
    inherit_params := true
    source := .definition ⟨[("c", .int 5), ("exp", .int 1)]⟩ }

def pipe12 : Pipeline :=
  { stages := [("Stage 1", stage1Spec), ("Stage 2", stage2Spec)]
    graph := [("Stage 1", ["Stage 2"])]
    graphNodes := ["Stage 1", "Stage 2"]
    entry := "Stage 1"
    current := "Stage 1"
    history := []
    instances := [("Stage 1", ⟨[("a", .int 2), ("b", .int 3)]⟩)] }

/-- `pipe12` with the second stage already held, for the revisit case. -/
def pipe12h : Pipeline :=
  { pipe12 with instances :=
      [("Stage 1", ⟨[("a", .int 2), ("b", .int 3)]⟩),
       ("Stage 2", ⟨[("c", .int 9), ("exp", .int 1)]⟩)] }

def multiplySpec : StageSpec :=
  { outputOp := fun i =>
      match lookupA i.params "value1", lookupA i.params "value2" with
      | some (.int x), some (.int y) => some [("result", .int (x * y))]
      | _, _ => none
    ready_parameter := some "ready"
    next_parameter := none
    auto_advance := true
    inherit_params := true
    source := .definition ⟨[("value1", .int 2), ("value2", .int 3), ("ready", .bool true)]⟩ }

def addSpec : StageSpec :=
  { outputOp := fun i =>
      match lookupA i.params "value1", lookupA i.params "value2" with
      | some (.int x), some (.int y) => some [("result", .int (x + y))]
      | _, _ => none
    ready_parameter := some "ready"
    next_parameter := none
    auto_advance := true
    inherit_params := true
    source := .definition ⟨[("value1", .int 2), ("value2", .int 3), ("ready", .bool true)]⟩ }

def resultSpec : StageSpec :=
  { outputOp := fun _ => some []
    ready_parameter := none
    next_parameter := none
    auto_advance := false
    inherit_params := true
    source := .definition ⟨[("result", .int 0)]⟩ }

/-- The branching `Input` stage with a given `operator` selector setup. -/
def inputSpecWith (np : Option String) (ps : Params) : StageSpec :=
  { outputOp := fun _ => some []
    ready_parameter := some "ready"
    next_parameter := np
    auto_advance := true
    inherit_params := true
    source := .live ⟨ps⟩ }

def branchGraph : Adjacency :=
  [("Input", ["Multiply", "Add"]), ("Multiply", ["Result"]), ("Add", ["Result"])]

def branchPipe (inp : StageSpec) (inst : StageInstance) : Pipeline :=
  { stages := [("Input", inp), ("Multiply", multiplySpec), ("Add", addSpec),
               ("Result", resultSpec)]
    graph := branchGraph
    graphNodes := ["Input", "Multiply", "Add", "Result"]
    entry := "Input"
    current := "Input"
    history := []
    instances := [("Input", inst)] }

def ambParams : Params := [("value1", .int 2), ("value2", .int 3), ("ready", .bool true)]

def branchPipeAmb : Pipeline :=
  branchPipe (inputSpecWith none ambParams) ⟨ambParams⟩

def selParams : Params :=
  [("value1", .int 2), ("value2", .int 3), ("ready", .bool true), ("operator", .str "Multiply")]

def branchPipeSel : Pipeline :=
  branchPipe (inputSpecWith (some "operator") selParams) ⟨selParams⟩

def badParams : Params :=
  [("value1", .int 2), ("value2", .int 3), ("ready", .bool true), ("operator", .str "Divide")]

def branchPipeBad : Pipeline :=
  branchPipe (inputSpecWith (some "operator") badParams) ⟨badParams⟩

/-- A two-stage pipeline gated by a `ready` flag currently holding `b`. -/
def gatedSpec (b : Bool) : StageSpec :=
  { outputOp := fun _ => some []
    ready_parameter := some "ready"
    next_parameter := none
    auto_advance := true
    inherit_params := true
    source := .live ⟨[("ready", .bool b)]⟩ }

def gatedPipe (b : Bool) : Pipeline :=
  { stages := [("Gate", gatedSpec b), ("Next", stage2Spec)]
    graph := [("Gate", ["Next"])]
    graphNodes := ["Gate", "Next"]
    entry := "Gate"
    current := "Gate"
    history := []
    instances := [("Gate", ⟨[("ready", .bool b)]⟩)] }

/-- A stage whose output operation raises. -/
def failSpec : StageSpec :=
  { outputOp := fun _ => none
    ready_parameter := none
    next_parameter := none
    auto_advance := false
    inherit_params := true
    source := .live ⟨[]⟩ }

def failPipe : Pipeline :=
  { stages := [("F", failSpec), ("Next", stage2Spec)]
    graph := [("F", ["Next"])]
    graphNodes := ["F", "Next"]
    entry := "F"
    current := "F"
    history := []
    instances := [("F", ⟨[]⟩)] }

/-- A trivial stage definition whose constructor produces `ps`. -/
def simpleSpec (ps : Params) : StageSpec :=
  { outputOp := fun _ => some []
    ready_parameter := none
    next_parameter := none
    auto_advance := false
    inherit_params := true
    source := .definition ⟨ps⟩ }

/-- A linear three-stage workflow A → B → C positioned at A. -/
def threePipe : Pipeline :=
  { stages := [("A", simpleSpec [("a", .int 7)]), ("B", simpleSpec []), ("C", simpleSpec [])]
    graph := [("A", ["B"]), ("B", ["C"])]
    graphNodes := ["A", "B", "C"]
    entry := "A"
    current := "A"
    history := []
    instances := [("A", ⟨[("a", .int 7)]⟩)] }

/-- C2: for every adjacency whose graph is a DAG with a single entry
stage, all edge endpoints registered, and every stage reachable from the
entry, `define_graph` succeeds; for every adjacency containing a cycle,
an unknown edge endpoint, or an unreachable stage, `define_graph` fails
with `InvalidGraph`, rejecting the graph before the workflow is driven. -/
theorem c2_define_graph_validation (p : Pipeline) (adj : List (String × AdjVal))
    (hnd : (stageNames p).Nodup) :
    ((∃ q, define_graph p adj = .ok q) ↔
      ValidGraphSpec (stageNames p) (normalizeAdj adj)) ∧
    (¬ ValidGraphSpec (stageNames p) (normalizeAdj adj) →
      define_graph p adj = .error .InvalidGraph) := by
  have hiff : (∃ q, define_graph p adj = .ok q) ↔
      ValidGraphSpec (stageNames p) (normalizeAdj adj) := by
    constructor
    · rintro ⟨q, hq⟩
      obtain ⟨e, hve, _⟩ := define_graph_ok_inv hq
      exact (validateEntry_some_iff hnd).mp ⟨e, hve⟩
    · intro hv
      obtain ⟨e, hve⟩ := (validateEntry_some_iff hnd).mpr hv
      refine ⟨{ p with graph := normalizeAdj adj, graphNodes := stageNames p, entry := e }, ?_⟩
      unfold define_graph
      rw [hve]
  refine ⟨hiff, ?_⟩
  intro hv
  cases hdg : define_graph p adj with
  | ok q => exact absurd (hiff.mp ⟨q, hdg⟩) hv
  | error e =>
    unfold define_graph at hdg
    split at hdg
    · simp at hdg
    · simp at hdg
      rw [hdg]

def dagStages : List (String × StageSpec) :=
  [("Input", inputSpecWith none ambParams), ("Multiply", multiplySpec),
   ("Add", addSpec), ("Result", resultSpec)]

def dagPipe : Pipeline := { emptyPipeline with stages := dagStages }

def dagAdj : List (String × AdjVal) :=
  [("Input", .many ["Multiply", "Add"]), ("Multiply", .single "Result"),
   ("Add", .single "Result")]

theorem c2_define_graph_validation_witness :
    ((∃ q, define_graph dagPipe dagAdj = .ok q) ↔
      ValidGraphSpec (stageNames dagPipe) (normalizeAdj dagAdj)) ∧
    (¬ ValidGraphSpec (stageNames dagPipe) (normalizeAdj dagAdj) →
      define_graph dagPipe dagAdj = .error .InvalidGraph) :=
  c2_define_graph_validation dagPipe dagAdj (by decide)

/-- C5: for every `advance()` whose stage output computation raises, the
result is an `OutputComputationFailed` error and the engine state is
unchanged: the current stage and the history stack are exactly what they
were before the call, so the caller may retry. -/
theorem c5_output_failure_atomic (p : Pipeline) (sel : Option String) (sp : StageSpec)
    (inst : StageInstance) (target : String)
    (hsp : lookupA p.stages p.current = some sp)
    (hinst : lookupA p.instances p.current = some inst)
    (hready : isReady sp inst = true)
    (hres : resolveNext sp inst (succs p.graph p.current) sel = .ok target)
    (hfail : sp.outputOp inst = none) :
    advance p sel = .error .OutputComputationFailed ∧
    (advanceStep p sel).1.current = p.current ∧
    (advanceStep p sel).1.history = p.history := by
  have h := advance_error_of_output hsp hinst hready hres hfail
  refine ⟨h, ?_, ?_⟩ <;> simp [advanceStep, h]

theorem c5_output_failure_atomic_witness :
    advance failPipe none = .error .OutputComputationFailed ∧
    (advanceStep failPipe none).1.current = failPipe.current ∧
    (advanceStep failPipe none).1.history = failPipe.history :=
  c5_output_failure_atomic failPipe none failSpec ⟨[]⟩ "Next" rfl rfl rfl rfl rfl

/-- C7: for every workflow state with empty history, `retreat()` fails
with `HistoryUnderflow` and the state (in particular the current stage)
is unchanged; `retreat()` is legal exactly when the history stack is
non-empty — which is what `can_retreat()` reports — succeeding whenever
the stage to return to is registered. -/
theorem c7_retreat_underflow :
    (∀ p : Pipeline, p.history = [] →
      retreat p = .error .HistoryUnderflow ∧ (retreatStep p).1 = p) ∧
    (∀ p : Pipeline, can_retreat p = true ↔ p.history ≠ []) ∧
    (∀ (p : Pipeline) (n : String) (rest : List String),
      p.history = n :: rest → (lookupA p.stages n).isSome = true →
      (retreat p).isOk = true) := by
  refine ⟨?_, ?_, ?_⟩
  · intro p hh
    have h : retreat p = .error .HistoryUnderflow := by
      unfold retreat
      rw [hh]
    exact ⟨h, by simp [retreatStep, h]⟩
  · intro p
    unfold can_retreat
    cases h : p.history <;> simp [h]
  · intro p n rest hh hsp
    obtain ⟨q, hq, _⟩ := enter_ok_current (p := { p with history := rest }) [] hsp
    have h : retreat p = .ok q := by
      unfold retreat
      rw [hh]
      exact hq
    rw [h]
    rfl

theorem c7_retreat_underflow_witness :
    (retreat threePipe = .error .HistoryUnderflow ∧ (retreatStep threePipe).1 = threePipe) ∧
    (can_retreat threePipe = true ↔ threePipe.history ≠ []) ∧
    (retreat (advD threePipe none)).isOk = true :=
  ⟨c7_retreat_underflow.1 threePipe rfl,
   c7_retreat_underflow.2.1 threePipe,
   c7_retreat_underflow.2.2 (advD threePipe none) "A" [] rfl rfl⟩

/-- C9: in every state reachable by any sequence of `register_stage`,
`define_graph`, `advance` and `retreat` operations from a validly
initialized workflow, every stage name on the history stack is a stage
present in the graph. -/
theorem c9_history_in_graph {p : Pipeline} (h : ReachSt p) :
    ∀ n ∈ p.history, n ∈ p.graphNodes :=
  fun n hn => ((engineInv_of_reach h).1 n hn).1

def reachL : List (String × StageSpec) :=
  [("A", simpleSpec [("a", .int 7)]), ("B", simpleSpec []), ("C", simpleSpec [])]

def reachAdj : List (String × AdjVal) := [("A", .many ["B"]), ("B", .single "C")]

def reachState : Pipeline := advD (stD (dgD (mkStages reachL) reachAdj)) none

theorem c9_history_in_graph_witness : "A" ∈ reachState.graphNodes := by
  have h1 : define_graph (mkStages reachL) reachAdj =
      .ok (dgD (mkStages reachL) reachAdj) := rfl
  have h2 : startPipeline (dgD (mkStages reachL) reachAdj) =
      .ok (stD (dgD (mkStages reachL) reachAdj)) := rfl
  have h3 : advance (stD (dgD (mkStages reachL) reachAdj)) none = .ok reachState := rfl
  exact c9_history_in_graph (ReachSt.adv (ReachSt.init h1 h2) h3) "A" (by decide)

/-- C10: an adjacency value may be supplied either as an ordered
collection of successor names or as a single bare stage-name string; a
bare string such as `"Result"` denotes that single stage as unique
successor — not a collection of single-character names — and both forms
yield the same graph from `define_graph`. -/
theorem c10_bare_string_adjacency :
    (∀ s : String, AdjVal.toList (.single s) = [s]) ∧
    (∀ (p : Pipeline) (pre post : List (String × AdjVal)) (k s : String),
      define_graph p (pre ++ (k, .single s) :: post) =
        define_graph p (pre ++ (k, .many [s]) :: post)) ∧
    AdjVal.toList (.single "Result") = ["Result"] ∧
    AdjVal.toList (.single "Result") ≠ ["R", "e", "s", "u", "l", "t"] := by
  refine ⟨fun s => rfl, ?_, rfl, by decide⟩
  intro p pre post k s
  have hnorm : normalizeAdj (pre ++ (k, .single s) :: post) =
      normalizeAdj (pre ++ (k, .many [s]) :: post) := by
    simp [normalizeAdj, AdjVal.toList]
  unfold define_graph
  rw [hnorm]

theorem baseInstance_history (p : Pipeline) (h : List String) (n : String) :
    baseInstance { p with history := h } n = baseInstance p n := rfl

/-- C1: for stages A and B connected by an edge, where A declares an
output named `c` and B declares an input parameter named `c`, after a
successful `advance()` from A the value of B's parameter `c` equals the
value returned by A's output operation: matching-named declared outputs
(and parameter values) of the completed stage are propagated into the
next stage's inputs as it is entered. -/
theorem c1_output_propagation (p : Pipeline) (sel : Option String) (sp spT : StageSpec)
    (inst base : StageInstance) (outs : Params) (c : String) (v : Value)
    (hsp : lookupA p.stages p.current = some sp)
    (hinst : lookupA p.instances p.current = some inst)
    (houts : sp.outputOp inst = some outs)
    (hok : (advance p sel).isOk = true)
    (hspT : lookupA p.stages ((advD p sel).current) = some spT)
    (hinh : spT.inherit_params = true)
    (hbase : baseInstance p ((advD p sel).current) = some base)
    (hdecl : (lookupA base.params c).isSome = true)
    (hv : lookupA outs c = some v) :
    ∃ i, lookupA (advD p sel).instances ((advD p sel).current) = some i ∧
      lookupA i.params c = some v := by
  obtain ⟨q, hq⟩ := isOk_exists hok
  rw [advD_of_ok hq] at hspT hbase ⊢
  obtain ⟨sp2, inst2, target, outs2, hsp2, hinst2, hready2, hres2, houts2, hent⟩ :=
    advance_ok_inv hq
  have hspe : sp2 = sp := by rw [hsp] at hsp2; exact (Option.some_injective _ hsp2).symm
  have hinste : inst2 = inst := by
    rw [hinst] at hinst2; exact (Option.some_injective _ hinst2).symm
  subst hspe hinste
  have houtse : outs2 = outs := by
    rw [houts] at houts2; exact (Option.some_injective _ houts2).symm
  subst houtse
  obtain ⟨spT2, base2, hspT2, hbase2, hqrec⟩ := enter_ok_inv hent
  have hqc : q.current = target := by rw [hqrec]
  rw [hqc] at hspT hbase ⊢
  have hspTe : spT2 = spT := by
    rw [show ({ p with history := p.current :: p.history } : Pipeline).stages = p.stages
      from rfl, hspT] at hspT2
    exact (Option.some_injective _ hspT2).symm
  subst hspTe
  have hbase2e : base2 = base := by
    rw [baseInstance_history, hbase] at hbase2
    exact (Option.some_injective _ hbase2).symm
  subst hbase2e
  rw [hqrec]
  simp only
  rw [lookupA_setInstance_self, hinh]
  simp only [if_true]
  refine ⟨_, rfl, ?_⟩
  rw [applyInherited_lookup]
  obtain ⟨w, hw⟩ := Option.isSome_iff_exists.mp hdecl
  rw [hw, lookupA_append, hv]

theorem c1_output_propagation_witness :
    ∃ i, lookupA (advD pipe12 none).instances ((advD pipe12 none).current) = some i ∧
      lookupA i.params "c" = some (.int 6) :=
  c1_output_propagation pipe12 none stage1Spec stage2Spec
    ⟨[("a", .int 2), ("b", .int 3)]⟩ ⟨[("c", .int 5), ("exp", .int 1)]⟩
    [("c", .int 6), ("d", .int 8)] "c" (.int 6)
    rfl rfl rfl rfl rfl rfl rfl rfl rfl

/-- C3: for every current stage with more than one successor — if its
`next_parameter` is unset and no explicit selection is supplied,
`advance()` fails with `AmbiguousTransition`; if `next_parameter` holds
the name of a declared successor M, `advance()` moves the cursor to M;
if `next_parameter` holds a value that is not a declared successor,
`advance()` fails. -/
theorem c3_branch_resolution :
    (∀ (p : Pipeline) (sp : StageSpec) (inst : StageInstance) (t1 t2 : String)
        (ts : List String),
      lookupA p.stages p.current = some sp →
      lookupA p.instances p.current = some inst →
      isReady sp inst = true →
      succs p.graph p.current = t1 :: t2 :: ts →
      sp.next_parameter = none →
      advance p none = .error .AmbiguousTransition) ∧
    (∀ (p : Pipeline) (sel : Option String) (sp : StageSpec) (inst : StageInstance)
        (t1 t2 : String) (ts : List String) (np M : String) (outs : Params),
      lookupA p.stages p.current = some sp →
      lookupA p.instances p.current = some inst →
      isReady sp inst = true →
      succs p.graph p.current = t1 :: t2 :: ts →
      sp.next_parameter = some np →
      lookupA inst.params np = some (.str M) →
      M ∈ t1 :: t2 :: ts →
      sp.outputOp inst = some outs →
      (lookupA p.stages M).isSome = true →
      (advance p sel).isOk = true ∧ (advD p sel).current = M) ∧
    (∀ (p : Pipeline) (sel : Option String) (sp : StageSpec) (inst : StageInstance)
        (t1 t2 : String) (ts : List String) (np X : String),
      lookupA p.stages p.current = some sp →
      lookupA p.instances p.current = some inst →
      isReady sp inst = true →
      succs p.graph p.current = t1 :: t2 :: ts →
      sp.next_parameter = some np →
      lookupA inst.params np = some (.str X) →
      X ∉ t1 :: t2 :: ts →
      advance p sel = .error .InvalidSelection) := by
  refine ⟨?_, ?_, ?_⟩
  · intro p sp inst t1 t2 ts hsp hinst hready hsc hnp
    have hres : resolveNext sp inst (succs p.graph p.current) none =
        .error .AmbiguousTransition := by
      rw [hsc]
      simp [resolveNext, hnp]
    exact advance_error_of_resolve hsp hinst hready hres
  · intro p sel sp inst t1 t2 ts np M outs hsp hinst hready hsc hnp hval hmem houts hM
    have hres : resolveNext sp inst (succs p.graph p.current) sel = .ok M := by
      rw [hsc]
      simp [resolveNext, hnp, hval, hmem]
    have hadv := advance_eq_enter hsp hinst hready hres houts
    obtain ⟨q, hq, hqc⟩ :=
      enter_ok_current (p := { p with history := p.current :: p.history })
        (outs ++ inst.params) hM
    rw [hq] at hadv
    rw [hadv]
    exact ⟨rfl, by rw [advD_of_ok hadv, hqc]⟩
  · intro p sel sp inst t1 t2 ts np X hsp hinst hready hsc hnp hval hnmem
    have hres : resolveNext sp inst (succs p.graph p.current) sel =
        .error .InvalidSelection := by
      rw [hsc]
      simp [resolveNext, hnp, hval, hnmem]
    exact advance_error_of_resolve hsp hinst hready hres

theorem c3_branch_resolution_witness :
    advance branchPipeAmb none = .error .AmbiguousTransition ∧
    ((advance branchPipeSel none).isOk = true ∧
      (advD branchPipeSel none).current = "Multiply") ∧
    advance branchPipeBad none = .error .InvalidSelection :=
  ⟨c3_branch_resolution.1 branchPipeAmb (inputSpecWith none ambParams) ⟨ambParams⟩
      "Multiply" "Add" [] rfl rfl rfl rfl rfl,
   c3_branch_resolution.2.1 branchPipeSel none (inputSpecWith (some "operator") selParams)
      ⟨selParams⟩ "Multiply" "Add" [] "operator" "Multiply" [] rfl rfl rfl rfl rfl rfl
      (by decide) rfl rfl,
   c3_branch_resolution.2.2 branchPipeBad none (inputSpecWith (some "operator") badParams)
      ⟨badParams⟩ "Multiply" "Add" [] "operator" "Divide" rfl rfl rfl rfl rfl rfl
      (by decide)⟩

/-- C4: for every current stage that declares a readiness flag,
`advance()` fails with `NotReady` while the flag is `false` and succeeds
(given an unambiguous successor) once the flag is `true`; a stage with
no declared readiness flag is treated as always ready, so `advance()` is
never blocked by readiness on it. -/
theorem c4_readiness_gate :
    (∀ (p : Pipeline) (sel : Option String) (sp : StageSpec) (inst : StageInstance)
        (r : String),
      lookupA p.stages p.current = some sp →
      lookupA p.instances p.current = some inst →
      sp.ready_parameter = some r →
      lookupA inst.params r = some (.bool false) →
      advance p sel = .error .NotReady) ∧
    (∀ (p : Pipeline) (sel : Option String) (sp : StageSpec) (inst : StageInstance)
        (r t : String) (outs : Params),
      lookupA p.stages p.current = some sp →
      lookupA p.instances p.current = some inst →
      sp.ready_parameter = some r →
      lookupA inst.params r = some (.bool true) →
      succs p.graph p.current = [t] →
      sp.outputOp inst = some outs →
      (lookupA p.stages t).isSome = true →
      (advance p sel).isOk = true) ∧
    (∀ (p : Pipeline) (sel : Option String) (sp : StageSpec) (inst : StageInstance),
      lookupA p.stages p.current = some sp →
      lookupA p.instances p.current = some inst →
      sp.ready_parameter = none →
      advance p sel ≠ .error .NotReady) := by
  refine ⟨?_, ?_, ?_⟩
  · intro p sel sp inst r hsp hinst hr hval
    have hready : isReady sp inst = false := by
      simp [isReady, hr, hval]
    exact advance_error_of_notReady hsp hinst hready
  · intro p sel sp inst r t outs hsp hinst hr hval hsc houts ht
    have hready : isReady sp inst = true := by
      simp [isReady, hr, hval]
    have hres : resolveNext sp inst (succs p.graph p.current) sel = .ok t := by
      rw [hsc]
      simp [resolveNext]
    have hadv := advance_eq_enter hsp hinst hready hres houts
    obtain ⟨q, hq, _⟩ :=
      enter_ok_current (p := { p with history := p.current :: p.history })
        (outs ++ inst.params) ht
    rw [hq] at hadv
    rw [hadv]
    rfl
  · intro p sel sp inst hsp hinst hr
    have hready : isReady sp inst = true := by
      simp [isReady, hr]
    cases hres : resolveNext sp inst (succs p.graph p.current) sel with
    | error e =>
      rw [advance_error_of_resolve hsp hinst hready hres]
      intro hcontra
      apply resolveNext_ne_notReady sp inst (succs p.graph p.current) sel
      rw [hres]
      injection hcontra with he
      rw [he]
    | ok target =>
      cases houts : sp.outputOp inst with
      | none =>
        rw [advance_error_of_output hsp hinst hready hres houts]
        simp
      | some outs =>
        rw [advance_eq_enter hsp hinst hready hres houts]
        exact enter_ne_notReady _ _ _

theorem c4_readiness_gate_witness :
    advance (gatedPipe false) none = .error .NotReady ∧
    (advance (gatedPipe true) none).isOk = true ∧
    advance pipe12 none ≠ .error .NotReady :=
  ⟨c4_readiness_gate.1 (gatedPipe false) none (gatedSpec false) ⟨[("ready", .bool false)]⟩
      "ready" rfl rfl rfl rfl,
   c4_readiness_gate.2.1 (gatedPipe true) none (gatedSpec true) ⟨[("ready", .bool true)]⟩
      "ready" "Next" [] rfl rfl rfl rfl rfl rfl rfl,
   c4_readiness_gate.2.2 pipe12 none stage1Spec ⟨[("a", .int 2), ("b", .int 3)]⟩
      rfl rfl rfl⟩

/-- C8: a stage registered as an uninstantiated definition is not
instantiated at registration or at graph definition; it is instantiated
from its factory exactly when the cursor first transitions onto it, and
on later visits the held instance is reused rather than a fresh one
being built from the factory. -/
theorem c8_lazy_instantiation :
    (∀ (p : Pipeline) (name : String) (sp : StageSpec),
      (add_stage p name sp).instances = p.instances) ∧
    (∀ (p : Pipeline) (adj : List (String × AdjVal)),
      (dgD p adj).instances = p.instances) ∧
    (∀ (p : Pipeline) (sel : Option String) (f : StageInstance) (spT : StageSpec),
      (advance p sel).isOk = true →
      lookupA p.instances ((advD p sel).current) = none →
      lookupA p.stages ((advD p sel).current) = some spT →
      spT.source = .definition f →
      ∃ inh, lookupA (advD p sel).instances ((advD p sel).current) =
        some (if spT.inherit_params then applyInherited f inh else f)) ∧
    (∀ (p : Pipeline) (sel : Option String) (i : StageInstance),
      (advance p sel).isOk = true →
      lookupA p.instances ((advD p sel).current) = some i →
      ∃ inh spT, lookupA p.stages ((advD p sel).current) = some spT ∧
        lookupA (advD p sel).instances ((advD p sel).current) =
          some (if spT.inherit_params then applyInherited i inh else i)) := by
  refine ⟨fun p name sp => rfl, ?_, ?_, ?_⟩
  · intro p adj
    unfold dgD
    cases hdg : define_graph p adj with
    | ok q =>
      obtain ⟨e, _, hq⟩ := define_graph_ok_inv hdg
      rw [hq]
    | error e => rfl
  · intro p sel f spT hok hnot hspT hsrc
    obtain ⟨q, hq⟩ := isOk_exists hok
    rw [advD_of_ok hq] at hnot hspT ⊢
    obtain ⟨sp, inst, target, outs, hsp, hinst, hready, hres, houts, hent⟩ :=
      advance_ok_inv hq
    obtain ⟨spT2, base, hspT2, hbase, hqrec⟩ := enter_ok_inv hent
    have hqc : q.current = target := by rw [hqrec]
    rw [hqc] at hnot hspT ⊢
    have hspTe : spT2 = spT := by
      rw [show ({ p with history := p.current :: p.history } : Pipeline).stages = p.stages
        from rfl, hspT] at hspT2
      exact (Option.some_injective _ hspT2).symm
    subst hspTe
    have hbf : base = f := by
      rw [baseInstance_history] at hbase
      unfold baseInstance at hbase
      rw [hnot] at hbase
      simp only at hbase
      rw [hspT] at hbase
      simp at hbase
      rw [← hbase, hsrc]
      rfl
    subst hbf
    refine ⟨outs ++ inst.params, ?_⟩
    rw [hqrec]
    simp only
    rw [lookupA_setInstance_self]
  · intro p sel i hok hheld
    obtain ⟨q, hq⟩ := isOk_exists hok
    rw [advD_of_ok hq] at hheld ⊢
    obtain ⟨sp, inst, target, outs, hsp, hinst, hready, hres, houts, hent⟩ :=
      advance_ok_inv hq
    obtain ⟨spT2, base, hspT2, hbase, hqrec⟩ := enter_ok_inv hent
    have hqc : q.current = target := by rw [hqrec]
    rw [hqc] at hheld ⊢
    have hbi : base = i := by
      rw [baseInstance_history] at hbase
      unfold baseInstance at hbase
      rw [hheld] at hbase
      simp at hbase
      exact hbase.symm
    subst hbi
    refine ⟨outs ++ inst.params, spT2, hspT2, ?_⟩
    rw [hqrec]
    simp only
    rw [lookupA_setInstance_self]

theorem c8_lazy_instantiation_witness :
    (add_stage pipe12 "X" stage2Spec).instances = pipe12.instances ∧
    (dgD pipe12 [("Stage 1", .single "Stage 2")]).instances = pipe12.instances ∧
    (∃ inh, lookupA (advD pipe12 none).instances ((advD pipe12 none).current) =
      some (if stage2Spec.inherit_params
        then applyInherited ⟨[("c", .int 5), ("exp", .int 1)]⟩ inh
        else ⟨[("c", .int 5), ("exp", .int 1)]⟩)) ∧
    (∃ inh spT, lookupA pipe12h.stages ((advD pipe12h none).current) = some spT ∧
      lookupA (advD pipe12h none).instances ((advD pipe12h none).current) =
        some (if spT.inherit_params
          then applyInherited ⟨[("c", .int 9), ("exp", .int 1)]⟩ inh
          else ⟨[("c", .int 9), ("exp", .int 1)]⟩)) :=
  ⟨c8_lazy_instantiation.1 pipe12 "X" stage2Spec,
   c8_lazy_instantiation.2.1 pipe12 [("Stage 1", .single "Stage 2")],
   c8_lazy_instantiation.2.2.1 pipe12 none ⟨[("c", .int 5), ("exp", .int 1)]⟩ stage2Spec
     rfl rfl rfl rfl,
   c8_lazy_instantiation.2.2.2 pipe12h none ⟨[("c", .int 9), ("exp", .int 1)]⟩ rfl rfl⟩

theorem advance_ok_fields {p q : Pipeline} {sel : Option String}
    (h : advance p sel = .ok q) :
    q.stages = p.stages ∧ q.graph = p.graph ∧
    q.history = p.current :: p.history ∧
    q.current ∈ succs p.graph p.current ∧
    (lookupA p.stages q.current).isSome = true ∧
    (lookupA p.instances p.current).isSome = true ∧
    (∀ m, m ≠ q.current → lookupA q.instances m = lookupA p.instances m) := by
  obtain ⟨sp, inst, target, outs, hsp, hinst, hready, hres, houts, hent⟩ :=
    advance_ok_inv h
  obtain ⟨spT, base, hspT, hbase, hq⟩ := enter_ok_inv hent
  subst hq
  refine ⟨rfl, rfl, rfl, ?_, ?_, ?_, ?_⟩
  · simp only
    exact resolveNext_mem hres
  · simp only
    rw [show lookupA p.stages target = some spT from hspT]
    rfl
  · rw [hinst]
    rfl
  · intro m hm
    simp only at hm ⊢
    exact lookupA_setInstance_other _ _ (Ne.symm hm)

theorem retreat_ok_fields {p q : Pipeline} (h : retreat p = .ok q) :
    ∃ n rest, p.history = n :: rest ∧ q.current = n ∧ q.history = rest ∧
      q.stages = p.stages ∧ q.graph = p.graph ∧
      (∀ m, m ≠ n → lookupA q.instances m = lookupA p.instances m) ∧
      (∀ i, lookupA p.instances n = some i → lookupA q.instances n = some i) := by
  obtain ⟨n, rest, hh, hent⟩ := retreat_ok_inv h
  obtain ⟨sp, base, hsp, hbase, hq⟩ := enter_ok_inv hent
  subst hq
  refine ⟨n, rest, hh, rfl, rfl, rfl, rfl, ?_, ?_⟩
  · intro m hm
    simp only
    exact lookupA_setInstance_other _ _ (Ne.symm hm)
  · intro i hi
    rw [baseInstance_history] at hbase
    have hbi : base = i := by
      unfold baseInstance at hbase
      rw [hi] at hbase
      simp at hbase
      exact hbase.symm
    subst hbi
    simp only
    rw [lookupA_setInstance_self, applyInherited_nil]
    simp

/-- C6: for every linear three-stage workflow A → B → C starting at A,
`advance()` twice makes C current with the path [B, A] on the history
stack; `retreat()` twice then returns through B to A, succeeding both
times, and A's previously entered instance — with its existing parameter
values — is the one restored, not a freshly instantiated one. -/
theorem c6_roundtrip (p : Pipeline) (A B C : String)
    (hAB : A ≠ B) (_hBC : B ≠ C) (hAC : A ≠ C)
    (hg : p.graph = [(A, [B]), (B, [C])])
    (hcur : p.current = A) (hhist : p.history = [])
    (h1 : (advance p none).isOk = true)
    (h2 : (advance (advD p none) none).isOk = true) :
    (advD (advD p none) none).current = C ∧
    (advD (advD p none) none).history = [B, A] ∧
    (retreat (advD (advD p none) none)).isOk = true ∧
    (retD (advD (advD p none) none)).current = B ∧
    (retreat (retD (advD (advD p none) none))).isOk = true ∧
    (retD (retD (advD (advD p none) none))).current = A ∧
    lookupA (retD (retD (advD (advD p none) none))).instances A =
      lookupA p.instances A := by
  obtain ⟨p1, hp1⟩ := isOk_exists h1
  have hd1 := advD_of_ok hp1
  rw [hd1] at h2 ⊢
  obtain ⟨p2, hp2⟩ := isOk_exists h2
  have hd2 := advD_of_ok hp2
  rw [hd2]
  obtain ⟨h1s, h1g, h1h, h1mem, h1reg, h1held, h1other⟩ := advance_ok_fields hp1
  obtain ⟨h2s, h2g, h2h, h2mem, h2reg, h2held, h2other⟩ := advance_ok_fields hp2
  have hsc1 : succs p.graph p.current = [B] := by
    rw [hg, hcur]
    simp [succs, lookupA]
  have hc1 : p1.current = B := by
    rw [hsc1] at h1mem
    simpa using h1mem
  have hsc2 : succs p1.graph p1.current = [C] := by
    rw [h1g, hc1, hg]
    simp [succs, lookupA_cons, hAB]
  have hc2 : p2.current = C := by
    rw [hsc2] at h2mem
    simpa using h2mem
  have hh1 : p1.history = [A] := by rw [h1h, hcur, hhist]
  have hh2 : p2.history = [B, A] := by rw [h2h, hc1, hh1]
  -- A's held instance and registration facts
  have hinstA : ∃ iA, lookupA p.instances A = some iA := by
    rw [hcur] at h1held
    exact Option.isSome_iff_exists.mp h1held
  obtain ⟨iA, hiA⟩ := hinstA
  have hregB : (lookupA p2.stages B).isSome = true := by
    rw [h2s, h1s]
    rw [hc1] at h1reg
    exact h1reg
  -- first retreat: from C back to B
  obtain ⟨p3, hp3v, _⟩ :=
    enter_ok_current (p := { p2 with history := [A] }) [] hregB
  have hr2 : retreat p2 = .ok p3 := by
    unfold retreat
    rw [hh2]
    exact hp3v
  have hd3 := retD_of_ok hr2
  rw [hd3]
  obtain ⟨n3, rest3, hhist3, hc3, hh3, h3s, h3g, h3other, h3pres⟩ := retreat_ok_fields hr2
  have hn3 : n3 = B ∧ rest3 = [A] := by
    rw [hh2] at hhist3
    exact ⟨(List.cons.injEq _ _ _ _ ▸ hhist3).1.symm,
      (List.cons.injEq _ _ _ _ ▸ hhist3).2.symm⟩
  obtain ⟨hn3B, hrest3⟩ := hn3
  -- second retreat: from B back to A
  have hregA : (lookupA p3.stages A).isSome = true := by
    rw [h3s, h2s, h1s, ← hcur]
    obtain ⟨sp, inst, target, outs, hsp, _⟩ := advance_ok_inv hp1
    rw [hsp]
    rfl
  obtain ⟨p4, hp4v, _⟩ :=
    enter_ok_current (p := { p3 with history := [] }) [] hregA
  have hh3A : p3.history = [A] := by rw [hh3, hrest3]
  have hr3 : retreat p3 = .ok p4 := by
    unfold retreat
    rw [hh3A]
    exact hp4v
  have hd4 := retD_of_ok hr3
  rw [hd4]
  obtain ⟨n4, rest4, hhist4, hc4, hh4, h4s, h4g, h4other, h4pres⟩ := retreat_ok_fields hr3
  have hn4A : n4 = A := by
    rw [hh3A] at hhist4
    exact (List.cons.injEq _ _ _ _ ▸ hhist4).1.symm
  -- the held instance of A survives the whole round trip
  have hA3 : lookupA p3.instances A = some iA := by
    rw [h3other A (by rw [hn3B]; exact hAB)]
    rw [h2other A (by rw [hc2]; exact hAC)]
    rw [h1other A (by rw [hc1]; exact hAB)]
    exact hiA
  have hA4 : lookupA p4.instances A = some iA := by
    have := h4pres iA (by rw [hn4A]; exact hA3)
    rwa [hn4A] at this
  refine ⟨hc2, hh2, ?_, ?_, ?_, ?_, ?_⟩
  · rw [hr2]
    rfl
  · rw [hc3, hn3B]
  · rw [hr3]
    rfl
  · rw [hc4, hn4A]
  · rw [hA4, hiA]

theorem c6_roundtrip_witness :
    (advD (advD threePipe none) none).current = "C" ∧
    (advD (advD threePipe none) none).history = ["B", "A"] ∧
    (retreat (advD (advD threePipe none) none)).isOk = true ∧
    (retD (advD (advD threePipe none) none)).current = "B" ∧
    (retreat (retD (advD (advD threePipe none) none))).isOk = true ∧
    (retD (retD (advD (advD threePipe none) none))).current = "A" ∧
    lookupA (retD (retD (advD (advD threePipe none) none))).instances "A" =
      lookupA threePipe.instances "A" :=
  c6_roundtrip threePipe "A" "B" "C" (by decide) (by decide) (by decide)
    rfl rfl rfl rfl rfl

end PipelineModel
